import Mathlib

/-!
Shallow embedding of the utility library (string formatting, array
deduplication, randomization, time-difference formatting, slugification,
case conversion, color hashing, chunking) together with theorems checking
the natural-language specification against the code.

JavaScript strings are modelled as `List Char` (UTF-16 code units of the
claims all lie in the BMP, where a code unit is a code point), JavaScript
numbers that the claims exercise as `Int`/`Nat`/`ℚ` with exact arithmetic
(every numeric constant appearing in the code, including the float
products `365.25 * 86400000` and `30.44 * 86400000`, is exactly
representable as the integer used here), and the `undefined` sentinel,
`console.error` diagnostics and thrown exceptions explicitly in result
structures.
-/

/-- JS slice index resolution: a negative index counts from the end,
clamped to `[0, len]`. -/
def jsSliceIdx (len : Nat) (i : Int) : Nat :=
  if i < 0 then (len + i).toNat else min i.toNat len

/-- JS `String.prototype.slice(start, end)` on a BMP string. -/
def jsSlice (s : List Char) (start stop : Int) : List Char :=
  (s.take (jsSliceIdx s.length stop)).drop (jsSliceIdx s.length start)

/-- The last `k` characters of a list (JS `slice(len - k)` for `k ≤ len`). -/
def lastChars (k : Nat) (l : List Char) : List Char :=
  l.drop (l.length - k)

/-- Decimal character form of an integer, as produced by JS
`Number.prototype.toString()` on an integral value. -/
def intToChars (n : Int) : List Char :=
  if n < 0 then '-' :: Nat.toDigits 10 n.natAbs else Nat.toDigits 10 n.toNat

/-- `sizedDecimal(number, length)`: build `length` zeros, append the
stringified number, keep the last `length` characters
(`joined.slice(joined.length - length)`). -/
def sizedDecimal (number : Int) (length : Nat) : List Char :=
  let pre := List.replicate length '0'
  let joined := pre ++ intToChars number
  joined.drop (joined.length - length)

theorem toDigitsCore_acc_len (b : Nat) :
    ∀ (f n : Nat) (acc : List Char), acc.length ≤ (Nat.toDigitsCore b f n acc).length := by
  intro f
  induction f with
  | zero => intro n acc; simp [Nat.toDigitsCore]
  | succ f ih =>
    intro n acc
    simp only [Nat.toDigitsCore]
    split
    · simp
    · exact le_trans (by simp) (ih _ _)

theorem toDigits_length_pos (b n : Nat) : 0 < (Nat.toDigits b n).length := by
  show 0 < (Nat.toDigitsCore b (n + 1) n []).length
  simp only [Nat.toDigitsCore]
  split
  · simp
  · exact lt_of_lt_of_le (by simp) (toDigitsCore_acc_len b n (n / b) [_])

theorem intToChars_ne_nil (n : Int) : intToChars n ≠ [] := by
  unfold intToChars
  split
  · simp
  · exact List.length_pos.mp (toDigits_length_pos 10 n.toNat)

/-- C6: `sizedDecimal` returns the last `length` characters of
`length` zeros followed by the decimal form of the number; when the
decimal form is at least `length` characters long, the result is a
left-truncated suffix of the decimal form; when it is at most `length`
characters long, the result is the decimal form zero-padded to width
`length`; `sizedDecimal 5 3 = "005"` and `sizedDecimal 12345 3 = "345"`. -/
theorem sizedDecimal_spec (number : Int) (length : Nat) :
    sizedDecimal number length
      = lastChars length (List.replicate length '0' ++ intToChars number) ∧
    (sizedDecimal number length).length = length ∧
    sizedDecimal number length <:+ (List.replicate length '0' ++ intToChars number) ∧
    (length ≤ (intToChars number).length →
      sizedDecimal number length <:+ intToChars number) ∧
    ((intToChars number).length ≤ length →
      sizedDecimal number length
        = List.replicate (length - (intToChars number).length) '0' ++ intToChars number) ∧
    sizedDecimal 5 3 = "005".data ∧ sizedDecimal 12345 3 = "345".data := by
  have hlen : (List.replicate length '0' ++ intToChars number).length
      = length + (intToChars number).length := by
    simp
  refine ⟨rfl, ?_, ?_, ?_, ?_, by decide, by decide⟩
  · show ((List.replicate length '0' ++ intToChars number).drop _).length = length
    rw [List.length_drop, hlen]
    omega
  · exact List.drop_suffix _ _
  · intro h
    show (List.replicate length '0' ++ intToChars number).drop _ <:+ intToChars number
    rw [hlen]
    have hdl : length + (intToChars number).length - length = (intToChars number).length := by
      omega
    rw [hdl, List.drop_append_eq_append_drop]
    have h1 : (List.replicate length '0').drop (intToChars number).length = [] :=
      List.drop_eq_nil_of_le (by simpa using h)
    rw [h1]
    simp only [List.nil_append, List.length_replicate]
    exact List.drop_suffix _ _
  · intro h
    show (List.replicate length '0' ++ intToChars number).drop _ = _
    rw [hlen]
    have hdl : length + (intToChars number).length - length = (intToChars number).length := by
      omega
    rw [hdl, List.drop_append_eq_append_drop, List.drop_replicate, List.length_replicate]
    have h2 : (intToChars number).length - length = 0 := by omega
    rw [h2, List.drop_zero]

/-- Witness for `sizedDecimal_spec` at `number = 12345`, `length = 3`:
the truncation branch applies, so the result is a suffix of the digits. -/
theorem sizedDecimal_spec_witness :
    sizedDecimal 12345 3 <:+ intToChars 12345 ∧ sizedDecimal 12345 3 = "345".data :=
  ⟨(sizedDecimal_spec 12345 3).2.2.2.1 (by decide), (sizedDecimal_spec 12345 3).2.2.2.2.2.2⟩

/-- One JS loop iteration semantics for `chunk`: the loop
`for (let i = 0; i < array.length; i += size) result.push(array.slice(i, i + size))`
as a fuel-indexed recursion; `none` means the fuel ran out before the loop
exited, so divergence of the loop is `none` for every fuel. -/
def chunkFuel (fuel : Nat) (array : List α) (size : Nat) (i : Nat) :
    Option (List (List α)) :=
  match fuel with
  | 0 => none
  | fuel + 1 =>
    if i < array.length then
      match chunkFuel fuel array size (i + size) with
      | some rest => some (((array.take (i + size)).drop i) :: rest)
      | none => none
    else some []

/-- The same loop as a total function, available under the precondition
`0 < size` that makes `array.length - i` strictly decrease. -/
def chunkGo (array : List α) (size : Nat) (hs : 0 < size) (i : Nat) :
    List (List α) :=
  if h : i < array.length then
    ((array.take (i + size)).drop i) :: chunkGo array size hs (i + size)
  else []
termination_by array.length - i
decreasing_by omega

/-- `chunk(array, size)` for a positive size. -/
def chunk (array : List α) (size : Nat) (hs : 0 < size) : List (List α) :=
  chunkGo array size hs 0

theorem chunkFuel_sound {α : Type} :
    ∀ (fuel : Nat) (array : List α) (size i : Nat) (r : List (List α)),
      chunkFuel fuel array size i = some r →
      r.flatten = array.drop i ∧ (∀ c ∈ r.dropLast, c.length = size) := by
  intro fuel
  induction fuel with
  | zero => intro array size i r h; simp [chunkFuel] at h
  | succ fuel ih =>
    intro array size i r h
    simp only [chunkFuel] at h
    by_cases hi : i < array.length
    · rw [if_pos hi] at h
      cases hrec : chunkFuel fuel array size (i + size) with
      | none => rw [hrec] at h; simp at h
      | some rest =>
        rw [hrec] at h
        simp only [Option.some.injEq] at h
        obtain ⟨hjoin, hsizes⟩ := ih array size (i + size) rest hrec
        subst h
        constructor
        · have hslice : (array.take (i + size)).drop i = (array.drop i).take size := by
            rw [List.drop_take]
            congr 1
            omega
          have hdd : array.drop (i + size) = (array.drop i).drop size := by
            rw [List.drop_drop]
          rw [List.flatten_cons, hjoin, hslice, hdd, List.take_append_drop]
        · intro c hc
          by_cases hrest : rest = []
          · subst hrest
            simp at hc
          · rw [List.dropLast_cons_of_ne_nil hrest] at hc
            rcases List.mem_cons.mp hc with hc1 | hc2
            · subst hc1
              have hlt : i + size < array.length := by
                by_contra hge
                have : chunkFuel fuel array size (i + size) = some [] ∨
                    chunkFuel fuel array size (i + size) = none := by
                  cases fuel with
                  | zero => right; rfl
                  | succ fuel' =>
                    left
                    simp only [chunkFuel]
                    rw [if_neg (by omega)]
                cases this with
                | inl h0 => rw [h0] at hrec; simp at hrec; exact hrest hrec
                | inr h0 => rw [h0] at hrec; simp at hrec
              have : ((array.take (i + size)).drop i).length = size := by
                rw [List.length_drop, List.length_take]
                omega
              exact this
            · exact hsizes c hc2
    · rw [if_neg hi] at h
      simp only [Option.some.injEq] at h
      subst h
      constructor
      · rw [List.drop_eq_nil_of_le (by omega)]
        rfl
      · intro c hc; simp at hc

/-- C2: whenever the `chunk` loop returns a result (any fuel, any size),
concatenating the returned subsequences in order reconstructs the original
array and every chunk except possibly the last has exactly `size` elements;
concretely, `chunk([1,2,3,4,5], 2)` returns `[[1,2],[3,4],[5]]`. -/
theorem chunk_reconstruct (array : List Int) (size fuel : Nat) (r : List (List Int))
    (h : chunkFuel fuel array size 0 = some r) :
    r.flatten = array ∧ (∀ c ∈ r.dropLast, c.length = size) ∧
    chunkFuel 4 [(1 : Int), 2, 3, 4, 5] 2 0 = some [[1, 2], [3, 4], [5]] := by
  obtain ⟨hjoin, hsizes⟩ := chunkFuel_sound fuel array size 0 r h
  exact ⟨by simpa using hjoin, hsizes, by decide⟩

/-- Witness for `chunk_reconstruct` at `array = [1,2,3,4,5]`, `size = 2`,
`fuel = 4`, `r = [[1,2],[3,4],[5]]`. -/
theorem chunk_reconstruct_witness :
    ([[(1 : Int), 2], [3, 4], [5]] : List (List Int)).flatten = [1, 2, 3, 4, 5] ∧
    (∀ c ∈ ([[(1 : Int), 2], [3, 4], [5]] : List (List Int)).dropLast, c.length = 2) :=
  ⟨(chunk_reconstruct [1, 2, 3, 4, 5] 2 4 [[1, 2], [3, 4], [5]] (by decide)).1,
   (chunk_reconstruct [1, 2, 3, 4, 5] 2 4 [[1, 2], [3, 4], [5]] (by decide)).2.1⟩

theorem chunkFuel_of_pos {α : Type} (array : List α) (size : Nat) (hs : 0 < size) :
    ∀ (fuel i : Nat), array.length - i < fuel →
      chunkFuel fuel array size i = some (chunkGo array size hs i) := by
  intro fuel
  induction fuel with
  | zero => intro i h; omega
  | succ fuel ih =>
    intro i h
    rw [chunkGo]
    simp only [chunkFuel]
    by_cases hi : i < array.length
    · rw [if_pos hi, dif_pos hi, ih (i + size) (by omega)]
    · rw [if_neg hi, dif_neg hi]

theorem chunkFuel_zero_size {α : Type} (array : List α) (h0 : array ≠ []) :
    ∀ (fuel i : Nat), i < array.length → chunkFuel fuel array 0 i = none := by
  intro fuel
  induction fuel with
  | zero => intro i _; rfl
  | succ fuel ih =>
    intro i hi
    simp only [chunkFuel]
    rw [if_pos hi, Nat.add_zero, ih i (by omega)]

/-- C10: the `chunk` loop terminates (returns a result for some fuel) if and
only if `size ≥ 1` or the array is empty; for `size ≥ 1` the loop agrees with
the total function `chunk` defined by well-founded recursion on
`array.length - i`, and for `size = 0` on a non-empty array no amount of fuel
produces a result. -/
theorem chunk_termination_spec (array : List Int) (size : Nat) :
    ((∃ fuel r, chunkFuel fuel array size 0 = some r) ↔ (0 < size ∨ array = [])) ∧
    (∀ hs : 0 < size,
      chunkFuel (array.length + 1) array size 0 = some (chunk array size hs)) := by
  constructor
  · constructor
    · rintro ⟨fuel, r, hr⟩
      by_contra hc
      push_neg at hc
      obtain ⟨hsz, hne⟩ := hc
      have hs0 : size = 0 := by omega
      subst hs0
      have : 0 < array.length := List.length_pos.mpr hne
      rw [chunkFuel_zero_size array hne fuel 0 this] at hr
      exact Option.noConfusion hr
    · intro h
      cases h with
      | inl hs =>
        exact ⟨array.length + 1, chunkGo array size hs 0,
          chunkFuel_of_pos array size hs (array.length + 1) 0 (by omega)⟩
      | inr hempty =>
        subst hempty
        exact ⟨1, [], rfl⟩
  · intro hs
    exact chunkFuel_of_pos array size hs (array.length + 1) 0 (by omega)

/-- Witness for `chunk_termination_spec` at `array = [1]`, `size = 1`. -/
theorem chunk_termination_spec_witness :
    (∃ fuel r, chunkFuel fuel ([1] : List Int) 1 0 = some r) ∧
    chunkFuel 2 ([1] : List Int) 1 0 = some (chunk [1] 1 Nat.one_pos) :=
  ⟨(chunk_termination_spec [1] 1).1.mpr (Or.inl Nat.one_pos),
   (chunk_termination_spec [1] 1).2 Nat.one_pos⟩

/-- Iteration of JS `new Set(arr)` construction: walk the array keeping a
set of already-seen values (JS `Set` iterates in insertion order, so
spreading it back into an array keeps the first occurrence of each value). -/
def dedupGo {α : Type} [DecidableEq α] (seen : List α) : List α → List α
  | [] => []
  | a :: l => if a ∈ seen then dedupGo seen l else a :: dedupGo (a :: seen) l

/-- `removeDuplicates(arr)` = `[...new Set(arr)]` on a valid array. -/
def removeDuplicates {α : Type} [DecidableEq α] (arr : List α) : List α :=
  dedupGo [] arr

/-- Modelled from the spec wording: a new sequence containing each distinct
value exactly once, in order of first occurrence. -/
def specFirstOccur {α : Type} [DecidableEq α] (arr : List α) : List α :=
  arr.foldl (fun acc a => if a ∈ acc then acc else acc ++ [a]) []

theorem mem_dedupGo {α : Type} [DecidableEq α] (a : α) :
    ∀ (l seen : List α), a ∈ dedupGo seen l ↔ a ∈ l ∧ a ∉ seen := by
  intro l
  induction l with
  | nil => intro seen; simp [dedupGo]
  | cons b l ih =>
    intro seen
    simp only [dedupGo]
    by_cases hab : a = b
    · subst hab
      by_cases hb : a ∈ seen
      · rw [if_pos hb, ih]
        simp [hb]
      · rw [if_neg hb]
        simp [hb]
    · by_cases hb : b ∈ seen
      · rw [if_pos hb, ih]
        simp only [List.mem_cons]
        tauto
      · rw [if_neg hb]
        simp only [List.mem_cons, ih, hab, false_or]

theorem nodup_dedupGo {α : Type} [DecidableEq α] :
    ∀ (l seen : List α), (dedupGo seen l).Nodup := by
  intro l
  induction l with
  | nil => intro seen; simp [dedupGo]
  | cons b l ih =>
    intro seen
    simp only [dedupGo]
    by_cases hb : b ∈ seen
    · rw [if_pos hb]; exact ih seen
    · rw [if_neg hb]
      refine List.nodup_cons.mpr ⟨fun hmem => ?_, ih (b :: seen)⟩
      exact ((mem_dedupGo b l (b :: seen)).mp hmem).2 (List.mem_cons_self b seen)

theorem sublist_dedupGo {α : Type} [DecidableEq α] :
    ∀ (l seen : List α), List.Sublist (dedupGo seen l) l := by
  intro l
  induction l with
  | nil => intro seen; simp [dedupGo]
  | cons b l ih =>
    intro seen
    simp only [dedupGo]
    by_cases hb : b ∈ seen
    · rw [if_pos hb]; exact (ih seen).cons b
    · rw [if_neg hb]; exact (ih (b :: seen)).cons₂ b

theorem dedupGo_foldl {α : Type} [DecidableEq α] :
    ∀ (l acc seen : List α), (∀ x, x ∈ acc ↔ x ∈ seen) →
      acc ++ dedupGo seen l
        = l.foldl (fun acc a => if a ∈ acc then acc else acc ++ [a]) acc := by
  intro l
  induction l with
  | nil => intro acc seen _; simp [dedupGo]
  | cons b l ih =>
    intro acc seen hiff
    simp only [dedupGo, List.foldl_cons]
    by_cases hb : b ∈ seen
    · rw [if_pos hb, if_pos ((hiff b).mpr hb)]
      exact ih acc seen hiff
    · rw [if_neg hb, if_neg (fun h => hb ((hiff b).mp h))]
      have := ih (acc ++ [b]) (b :: seen) (fun x => by
        simp only [List.mem_append, List.mem_singleton, List.mem_cons, hiff x]
        tauto)
      rw [← this, List.append_assoc]
      rfl

/-- C8: `removeDuplicates` returns a sequence with no repeated elements, with
the same members as the input, order-preserving (a sublist of the input), equal
to the first-occurrence deduplication described by the spec; concretely
`removeDuplicates [1,2,2,3,1] = [1,2,3]`. -/
theorem removeDuplicates_spec (α : Type) [DecidableEq α] (l : List α) :
    (removeDuplicates l).Nodup ∧
    (∀ a, a ∈ removeDuplicates l ↔ a ∈ l) ∧
    List.Sublist (removeDuplicates l) l ∧
    removeDuplicates l = specFirstOccur l ∧
    removeDuplicates [1, 2, 2, 3, 1] = ([1, 2, 3] : List Int) := by
  refine ⟨nodup_dedupGo l [], ?_, sublist_dedupGo l [], ?_, by decide⟩
  · intro a
    rw [removeDuplicates, mem_dedupGo]
    simp
  · rw [removeDuplicates, specFirstOccur]
    have := dedupGo_foldl l [] [] (fun x => Iff.rfl)
    simpa using this

/-- The six interval lengths in milliseconds used by `getTimeBetween`. The
float products in the code are exact: `365.25 * 24*60*60*1000 = 31557600000`
and `30.44 * 24*60*60*1000 = 2630016000` are both exactly representable
binary64 computations (checked in `getTimeBetween_spec`). -/
inductive TimeUnit where
  | year | month | day | hour | minute | second
deriving DecidableEq

def unitMillis : TimeUnit → Nat
  | .year => 31557600000
  | .month => 2630016000
  | .day => 86400000
  | .hour => 3600000
  | .minute => 60000
  | .second => 1000

def unitName : TimeUnit → String
  | .year => "year"
  | .month => "month"
  | .day => "day"
  | .hour => "hour"
  | .minute => "minute"
  | .second => "second"

/-- Modelled from the spec wording: the largest unit with a nonzero elapsed
count, in the order year, month, day, hour, minute, second, defaulting to
the second unit. -/
def selectedUnit (timeDiff : Nat) : TimeUnit :=
  if 0 < timeDiff / unitMillis .year then .year
  else if 0 < timeDiff / unitMillis .month then .month
  else if 0 < timeDiff / unitMillis .day then .day
  else if 0 < timeDiff / unitMillis .hour then .hour
  else if 0 < timeDiff / unitMillis .minute then .minute
  else .second

/-- Modelled from the spec wording: `"<count> <unit>"` with a trailing `s`
exactly when the count is not 1. -/
def pluralize (v : Nat) (u : String) : String :=
  toString v ++ " " ++ u ++ (if v ≠ 1 then "s" else "")

/-- Body of `getTimeBetween` on the absolute millisecond difference:
elapsed counts by floor division, then the if-chain from the code. -/
def getTimeBetweenCore (timeDiff : Nat) : String :=
  let yearC := timeDiff / 31557600000
  let monthC := timeDiff / 2630016000
  let dayC := timeDiff / 86400000
  let hourC := timeDiff / 3600000
  let minuteC := timeDiff / 60000
  let secondC := timeDiff / 1000
  let tv : String × Nat :=
    if 0 < yearC then ("year", yearC)
    else if 0 < monthC then ("month", monthC)
    else if 0 < dayC then ("day", dayC)
    else if 0 < hourC then ("hour", hourC)
    else if 0 < minuteC then ("minute", minuteC)
    else ("second", secondC)
  toString tv.2 ++ " " ++ tv.1 ++ (if tv.2 ≠ 1 then "s" else "")

/-- `getTimeBetween(firstDate, secondDate)` on epoch-millisecond values. -/
def getTimeBetween (firstDate secondDate : Int) : String :=
  getTimeBetweenCore (firstDate - secondDate).natAbs

theorem getTimeBetweenCore_eq_pluralize (d : Nat) :
    getTimeBetweenCore d
      = pluralize (d / unitMillis (selectedUnit d)) (unitName (selectedUnit d)) := by
  simp only [getTimeBetweenCore, selectedUnit, pluralize, unitMillis, unitName]
  split_ifs <;> rfl

/-- C3: `getTimeBetween` is symmetric in its two date arguments, formats the
count of the largest unit with a nonzero count (year, month, day, hour,
minute, second order; the second unit when all counts are zero, via the fixed
approximations 365.25 days per year and 30.44 days per month) pluralized with
a trailing `s` exactly when the count is not 1; in particular a 90000 ms gap
gives `"1 minute"` and a zero gap gives `"0 seconds"`. -/
theorem getTimeBetween_spec (t1 t2 : Int) :
    getTimeBetween t1 t2 = getTimeBetween t2 t1 ∧
    getTimeBetween t1 (t1 + 90000) = "1 minute" ∧
    getTimeBetween t1 t1 = "0 seconds" ∧
    getTimeBetween t1 t2
      = pluralize ((t1 - t2).natAbs / unitMillis (selectedUnit (t1 - t2).natAbs))
          (unitName (selectedUnit (t1 - t2).natAbs)) ∧
    ((unitMillis .year : ℚ) = 365.25 * (24 * 60 * 60 * 1000) ∧
     (unitMillis .month : ℚ) = 30.44 * (24 * 60 * 60 * 1000) ∧
     unitMillis .day = 24 * 60 * 60 * 1000 ∧ unitMillis .hour = 60 * 60 * 1000 ∧
     unitMillis .minute = 60 * 1000 ∧ unitMillis .second = 1000) := by
  refine ⟨?_, ?_, ?_, getTimeBetweenCore_eq_pluralize _, ?_⟩
  · unfold getTimeBetween
    congr 1
    omega
  · unfold getTimeBetween
    have h : (t1 - (t1 + 90000)).natAbs = 90000 := by omega
    rw [h]
    decide
  · unfold getTimeBetween
    have h : (t1 - t1).natAbs = 0 := by omega
    rw [h]
    decide
  · refine ⟨by norm_num [unitMillis], by norm_num [unitMillis], by decide, by decide,
      by decide, by decide⟩

/-- `getRandomNumberInRange(lower, upper)` with the draw `r` of
`Math.random()` (a value in `[0, 1)`) made explicit:
`Math.floor(r * (upper - lower + 1)) + lower` after
`lower = Math.ceil(lower)` and `upper = Math.floor(upper)`. -/
def getRandomNumberInRange (r lower upper : ℚ) : Int :=
  ⌊r * ((⌊upper⌋ : ℚ) - (⌈lower⌉ : ℚ) + 1)⌋ + ⌈lower⌉

/-- C5 counterexample: with valid (non-NaN) bounds `lower = 5`, `upper = 2`
and the draw `r = 0`, the result is `5`, which does not lie in the interval
`[ceil 5, floor 2] = [5, 2]` (that interval is empty). -/
theorem getRandomNumberInRange_counterexample :
    getRandomNumberInRange 0 5 2 = 5 ∧
    ¬ (⌈(5 : ℚ)⌉ ≤ getRandomNumberInRange 0 5 2 ∧
       getRandomNumberInRange 0 5 2 ≤ ⌊(2 : ℚ)⌋) := by
  have h : getRandomNumberInRange 0 5 2 = 5 := by
    unfold getRandomNumberInRange
    norm_num
  refine ⟨h, ?_⟩
  rw [h]
  norm_num

/-- C5 (amended: the bounds must satisfy `ceil lower ≤ floor upper`): for
every draw `r ∈ [0, 1)` of the pseudo-random source, the result is an
integer in `[ceil lower, floor upper]` inclusive, and
`getRandomNumberInRange(2, 2)` is always `2`. -/
theorem getRandomNumberInRange_spec (r lower upper : ℚ)
    (h0 : 0 ≤ r) (h1 : r < 1) (hlu : ⌈lower⌉ ≤ ⌊upper⌋) :
    ⌈lower⌉ ≤ getRandomNumberInRange r lower upper ∧
    getRandomNumberInRange r lower upper ≤ ⌊upper⌋ ∧
    getRandomNumberInRange r 2 2 = 2 := by
  unfold getRandomNumberInRange
  set l := ⌈lower⌉ with hl
  set u := ⌊upper⌋ with hu
  have hcast : ((u : ℚ) - (l : ℚ) + 1) = ((u - l + 1 : Int) : ℚ) := by push_cast; ring
  have hnpos : (0 : Int) < u - l + 1 := by omega
  have hnposQ : (0 : ℚ) < ((u - l + 1 : Int) : ℚ) := by exact_mod_cast hnpos
  have hfl0 : 0 ≤ ⌊r * ((u - l + 1 : Int) : ℚ)⌋ :=
    Int.floor_nonneg.mpr (mul_nonneg h0 (le_of_lt hnposQ))
  have hflu : ⌊r * ((u - l + 1 : Int) : ℚ)⌋ < u - l + 1 := by
    rw [Int.floor_lt]
    calc r * ((u - l + 1 : Int) : ℚ) < 1 * ((u - l + 1 : Int) : ℚ) :=
          mul_lt_mul_of_pos_right h1 hnposQ
      _ = ((u - l + 1 : Int) : ℚ) := one_mul _
  refine ⟨?_, ?_, ?_⟩
  · rw [hcast]; omega
  · rw [hcast]; omega
  · have e1 : (⌈(2 : ℚ)⌉ : Int) = 2 := by norm_num
    have e2 : (⌊(2 : ℚ)⌋ : Int) = 2 := by norm_num
    rw [e1, e2]
    have e3 : (((2 : Int) : ℚ) - ((2 : Int) : ℚ) + 1) = 1 := by norm_num
    rw [e3, mul_one]
    have e4 : ⌊r⌋ = 0 := Int.floor_eq_zero_iff.mpr ⟨h0, h1⟩
    omega

/-- Witness for `getRandomNumberInRange_spec` at `r = 0`, `lower = 0`,
`upper = 10`. -/
theorem getRandomNumberInRange_spec_witness :
    ⌈(0 : ℚ)⌉ ≤ getRandomNumberInRange 0 0 10 ∧
    getRandomNumberInRange 0 0 10 ≤ ⌊(10 : ℚ)⌋ ∧
    getRandomNumberInRange 0 2 2 = 2 :=
  getRandomNumberInRange_spec 0 0 10 (by norm_num) (by norm_num) (by norm_num)

/-- JS `ToInt32`: wrap an integer into `[-2^31, 2^31)`. -/
def toInt32 (n : Int) : Int := (n + 2 ^ 31) % 2 ^ 32 - 2 ^ 31

/-- One step of the rolling hash `hash = charCode + ((hash << 5) - hash)`:
`<<` coerces its operand with `ToInt32` and wraps its result to 32 bits,
while the outer subtraction and addition are exact (they stay far below
2^53, so the doubles involved are exact integers). -/
def hashStep (hash : Int) (code : Nat) : Int :=
  code + (toInt32 (toInt32 hash * 32) - hash)

/-- The rolling hash accumulated over the UTF-16 code units, left to right,
starting from 0. -/
def hashOf (s : List Char) : Int := s.foldl (fun h c => hashStep h c.toNat) 0

/-- `(hash >> (i * 8)) & 0xff`: `>>` coerces with `ToInt32` and shifts
arithmetically (floor division by `2^(i*8)`), and `& 0xff` keeps the low
8 bits of the two's complement pattern, i.e. the nonnegative residue
mod 256. -/
def byteOf (hash : Int) (i : Nat) : Int :=
  Int.fdiv (toInt32 hash) (2 ^ (i * 8)) % 256

/-- `("00" + value.toString(16)).substr(-2)`: zero-padded 2-digit lowercase
hexadecimal. -/
def hexByte (v : Nat) : List Char :=
  lastChars 2 ('0' :: '0' :: Nat.toDigits 16 v)

/-- `stringToColor(text)` on a valid string: `"#"` followed by the three
extracted bytes, for `i = 0, 1, 2` in that order. -/
def stringToColor (s : List Char) : List Char :=
  let hash := hashOf s
  '#' :: (hexByte (byteOf hash 0).toNat ++ hexByte (byteOf hash 1).toNat
    ++ hexByte (byteOf hash 2).toNat)

def isHexDigit (c : Char) : Bool :=
  ('0' ≤ c && c ≤ '9') || ('a' ≤ c && c ≤ 'f')

theorem hexByte_length (v : Nat) : (hexByte v).length = 2 := by
  unfold hexByte lastChars
  rw [List.length_drop]
  simp only [List.length_cons]
  omega

theorem byteOf_nonneg (hash : Int) (i : Nat) : 0 ≤ byteOf hash i :=
  Int.emod_nonneg _ (by norm_num)

theorem byteOf_lt (hash : Int) (i : Nat) : byteOf hash i < 256 :=
  Int.emod_lt_of_pos _ (by norm_num)

theorem byteOf_toNat_lt (hash : Int) (i : Nat) : (byteOf hash i).toNat < 256 := by
  have h1 := byteOf_lt hash i
  omega

set_option maxRecDepth 4096 in
theorem hexByte_mem_hex : ∀ v : Nat, v < 256 → ∀ c ∈ hexByte v, isHexDigit c = true := by
  decide

/-- C9: `stringToColor` is deterministic (identical input lists yield
identical results), and its result is `"#"` followed by six lowercase
hexadecimal digits (length 7), namely the bytes `(hash >> (i*8)) & 0xff`
for `i = 0, 1, 2` of the accumulated 32-bit-wrapping rolling hash, each
rendered as zero-padded 2-digit hexadecimal, in that order. -/
theorem stringToColor_spec (s : List Char) :
    (∀ t : List Char, s = t → stringToColor s = stringToColor t) ∧
    (stringToColor s).length = 7 ∧
    (stringToColor s).head? = some '#' ∧
    (∀ c ∈ (stringToColor s).tail, isHexDigit c = true) ∧
    stringToColor s
      = '#' :: (hexByte (byteOf (hashOf s) 0).toNat ++ hexByte (byteOf (hashOf s) 1).toNat
          ++ hexByte (byteOf (hashOf s) 2).toNat) := by
  refine ⟨fun t ht => ht ▸ rfl, ?_, rfl, ?_, rfl⟩
  · show ('#' :: (hexByte (byteOf (hashOf s) 0).toNat ++ hexByte (byteOf (hashOf s) 1).toNat
      ++ hexByte (byteOf (hashOf s) 2).toNat)).length = 7
    simp only [List.length_cons, List.length_append, hexByte_length]
  · intro c hc
    have hc' : c ∈ hexByte (byteOf (hashOf s) 0).toNat
        ∨ c ∈ hexByte (byteOf (hashOf s) 1).toNat
        ∨ c ∈ hexByte (byteOf (hashOf s) 2).toNat := by
      have : c ∈ hexByte (byteOf (hashOf s) 0).toNat ++ hexByte (byteOf (hashOf s) 1).toNat
          ++ hexByte (byteOf (hashOf s) 2).toNat := hc
      simp only [List.mem_append] at this
      tauto
    rcases hc' with h | h | h
    · exact hexByte_mem_hex _ (byteOf_toNat_lt _ _) c h
    · exact hexByte_mem_hex _ (byteOf_toNat_lt _ _) c h
    · exact hexByte_mem_hex _ (byteOf_toNat_lt _ _) c h

/-- Witness for `stringToColor_spec` at the concrete input
`"hello world"`. -/
theorem stringToColor_spec_witness :
    stringToColor "hello world".data = stringToColor "hello world".data ∧
    (stringToColor "hello world".data).length = 7 :=
  ⟨(stringToColor_spec "hello world".data).1 "hello world".data rfl,
   (stringToColor_spec "hello world".data).2.1⟩

theorem char_le_iff {a b : Char} : a ≤ b ↔ a.toNat ≤ b.toNat := Iff.rfl

/-- The regex class `[A-Z]` (ASCII only, no flags). -/
def isUpperAZ (c : Char) : Bool := 'A' ≤ c && c ≤ 'Z'

/-- The regex class `[a-z]` (ASCII only, no flags). -/
def isLowerAZ (c : Char) : Bool := 'a' ≤ c && c ≤ 'z'

/-- `camelToSnakeCase(text)` on a valid string:
`text.replace(/[A-Z]/g, letter => "_" + letter.toLowerCase())`;
the matched letter is ASCII, where JS `toLowerCase` agrees with
`Char.toLower`. -/
def camelToSnakeCase (s : List Char) : List Char :=
  (s.map fun c => if isUpperAZ c then ['_', c.toLower] else [c]).flatten

/-- The global left-to-right non-overlapping scan of
`replace(/([-_][a-z])/g, group => group.toUpperCase().replace("-", "").replace("_", ""))`:
each separator followed by a lowercase letter becomes that letter
uppercased (uppercasing the group leaves the separator unchanged and the
two `replace` calls then delete it). -/
def snakeCamelGo : List Char → List Char
  | [] => []
  | c :: rest =>
    if c = '-' ∨ c = '_' then
      match rest with
      | [] => [c]
      | d :: rest2 =>
        if isLowerAZ d then d.toUpper :: snakeCamelGo rest2
        else c :: snakeCamelGo (d :: rest2)
    else c :: snakeCamelGo rest

/-- `snakeToCamelCase(text)` on a valid string: lowercase everything, then
apply the separator-letter replacement scan. The lowercasing is modelled
with `Char.toLower`, which agrees with JS `toLowerCase` on the ASCII
strings the round-trip claim is about. -/
def snakeToCamelCase (s : List Char) : List Char :=
  snakeCamelGo (s.map Char.toLower)

theorem toLower_eq_self (c : Char) (h : c.toNat < 65 ∨ 90 < c.toNat) :
    c.toLower = c := by
  unfold Char.toLower
  rw [if_neg]
  omega

theorem toLower_toUpper_lower (c : Char) (h1 : 'a' ≤ c) (h2 : c ≤ 'z') :
    c.toUpper.toLower = c := by
  have hn1 : 97 ≤ c.toNat := char_le_iff.mp h1
  have hn2 : c.toNat ≤ 122 := char_le_iff.mp h2
  obtain ⟨n, hb1, hb2, rfl⟩ : ∃ n, 97 ≤ n ∧ n ≤ 122 ∧ c = Char.ofNat n :=
    ⟨c.toNat, hn1, hn2, (Char.ofNat_toNat c).symm⟩
  interval_cases n <;> decide

theorem isUpperAZ_toUpper (c : Char) (h1 : 'a' ≤ c) (h2 : c ≤ 'z') :
    isUpperAZ c.toUpper = true := by
  have hn1 : 97 ≤ c.toNat := char_le_iff.mp h1
  have hn2 : c.toNat ≤ 122 := char_le_iff.mp h2
  obtain ⟨n, hb1, hb2, rfl⟩ : ∃ n, 97 ≤ n ∧ n ≤ 122 ∧ c = Char.ofNat n :=
    ⟨c.toNat, hn1, hn2, (Char.ofNat_toNat c).symm⟩
  interval_cases n <;> decide

theorem camelToSnakeCase_cons (c : Char) (t : List Char) :
    camelToSnakeCase (c :: t)
      = (if isUpperAZ c then ['_', c.toLower] else [c]) ++ camelToSnakeCase t := by
  simp [camelToSnakeCase]

theorem lowerAZ_toNat (c : Char) (h : isLowerAZ c = true) :
    97 ≤ c.toNat ∧ c.toNat ≤ 122 := by
  have hand := (Bool.and_eq_true _ _).mp h
  have h1 := char_le_iff.mp (of_decide_eq_true hand.1)
  have h2 := char_le_iff.mp (of_decide_eq_true hand.2)
  have ha : ('a').toNat = 97 := rfl
  have hz : ('z').toNat = 122 := rfl
  rw [ha] at h1
  rw [hz] at h2
  exact ⟨h1, h2⟩

theorem isUpperAZ_of_dom (c : Char) (h : isLowerAZ c = true ∨ c = '_') :
    isUpperAZ c = false := by
  rcases h with h | rfl
  · have h1 := (lowerAZ_toNat c h).1
    unfold isUpperAZ
    rw [Bool.and_eq_false_iff]
    right
    rw [decide_eq_false_iff_not]
    intro hle
    have h2 := char_le_iff.mp hle
    have hz : ('Z').toNat = 90 := rfl
    rw [hz] at h2
    omega
  · decide

theorem lowerAZ_le (c : Char) (h : isLowerAZ c = true) : 'a' ≤ c ∧ c ≤ 'z' := by
  have hand := (Bool.and_eq_true _ _).mp h
  exact ⟨of_decide_eq_true hand.1, of_decide_eq_true hand.2⟩

theorem camel_snakeCamelGo :
    ∀ s : List Char, (∀ c ∈ s, isLowerAZ c = true ∨ c = '_') →
      camelToSnakeCase (snakeCamelGo s) = s := by
  intro s
  induction s using snakeCamelGo.induct with
  | case1 => intro _; rfl
  | case2 d hd =>
    intro hdom
    have hsingle : snakeCamelGo [d] = [d] := by
      rcases hd with rfl | rfl <;> rfl
    rw [hsingle, camelToSnakeCase_cons, isUpperAZ_of_dom d (hdom d (by simp))]
    rfl
  | case3 d hd d1 rest2 hlow ih =>
    intro hdom
    have hd_ : d = '_' := by
      rcases hd with rfl | rfl
      · rcases hdom '-' (by simp) with h | h
        · exact absurd h (by decide)
        · exact absurd h (by decide)
      · rfl
    subst hd_
    have hstep : snakeCamelGo ('_' :: d1 :: rest2) = d1.toUpper :: snakeCamelGo rest2 := by
      simp [snakeCamelGo, hlow]
    obtain ⟨ha, hz⟩ := lowerAZ_le d1 hlow
    rw [hstep, camelToSnakeCase_cons, isUpperAZ_toUpper d1 ha hz]
    simp only [if_true]
    rw [toLower_toUpper_lower d1 ha hz,
      ih (fun c hc => hdom c (by simp [hc]))]
    rfl
  | case4 d hd d1 rest2 hnl ih =>
    intro hdom
    have hd_ : d = '_' := by
      rcases hd with rfl | rfl
      · rcases hdom '-' (by simp) with h | h
        · exact absurd h (by decide)
        · exact absurd h (by decide)
      · rfl
    subst hd_
    have hstep : snakeCamelGo ('_' :: d1 :: rest2) = '_' :: snakeCamelGo (d1 :: rest2) := by
      rw [snakeCamelGo.eq_def]
      simp [hnl]
    rw [hstep, camelToSnakeCase_cons, isUpperAZ_of_dom '_' (Or.inr rfl)]
    rw [ih (fun c hc => hdom c (by simp at hc ⊢; tauto))]
    rfl
  | case5 d rest hnsep ih =>
    intro hdom
    have hdomd : isLowerAZ d = true ∨ d = '_' := hdom d (by simp)
    have hstep : snakeCamelGo (d :: rest) = d :: snakeCamelGo rest := by
      rcases rest with _ | ⟨e, rest2⟩
      · rw [snakeCamelGo.eq_def]
        simp [hnsep]
      · rw [snakeCamelGo.eq_def]
        simp [hnsep]
    rw [hstep, camelToSnakeCase_cons, isUpperAZ_of_dom d hdomd]
    rw [ih (fun c hc => hdom c (by simp [hc]))]
    rfl

theorem map_toLower_id (s : List Char) (hdom : ∀ c ∈ s, isLowerAZ c = true ∨ c = '_') :
    s.map Char.toLower = s := by
  induction s with
  | nil => rfl
  | cons c t ih =>
    have hc : Char.toLower c = c := by
      rcases hdom c (by simp) with h | rfl
      · exact toLower_eq_self c (Or.inr (by have := (lowerAZ_toNat c h).1; omega))
      · decide
    simp only [List.map_cons, hc, ih (fun c hc => hdom c (by simp [hc]))]

/-- C7 counterexample: `"hello-world"` uses only lowercase letters and the
single-character separator `-`, but the round trip maps it to
`"hello_world"`, not back to itself. -/
theorem case_roundtrip_hyphen_counterexample :
    camelToSnakeCase (snakeToCamelCase "hello-world".data) = "hello_world".data ∧
    camelToSnakeCase (snakeToCamelCase "hello-world".data) ≠ "hello-world".data := by
  constructor <;> decide

/-- C7 (amended: the separator must be the underscore; a hyphen separator is
consumed by `snakeToCamelCase` but re-emitted as an underscore by
`camelToSnakeCase`): for every identifier over lowercase letters and
underscores, `camelToSnakeCase (snakeToCamelCase s) = s`; and
`camelToSnakeCase "helloWorld" = "hello_world"`,
`snakeToCamelCase "hello_world" = "helloWorld"`. -/
theorem case_roundtrip_spec (s : List Char)
    (h : ∀ c ∈ s, isLowerAZ c = true ∨ c = '_') :
    camelToSnakeCase (snakeToCamelCase s) = s ∧
    camelToSnakeCase "helloWorld".data = "hello_world".data ∧
    snakeToCamelCase "hello_world".data = "helloWorld".data := by
  refine ⟨?_, by decide, by decide⟩
  rw [snakeToCamelCase, map_toLower_id s h]
  exact camel_snakeCamelGo s h

/-- Witness for `case_roundtrip_spec` at the concrete input
`"hello_world"`. -/
theorem case_roundtrip_spec_witness :
    camelToSnakeCase (snakeToCamelCase "hello_world".data) = "hello_world".data ∧
    camelToSnakeCase "helloWorld".data = "hello_world".data :=
  ⟨(case_roundtrip_spec "hello_world".data (by decide)).1,
   (case_roundtrip_spec "hello_world".data (by decide)).2.1⟩

/-- The regex class `\w` = `[A-Za-z0-9_]`. -/
def isWordChar (c : Char) : Bool :=
  ('a' ≤ c && c ≤ 'z') || ('A' ≤ c && c ≤ 'Z') || ('0' ≤ c && c ≤ '9') || c = '_'

/-- `slugify(text)` on a valid string: lowercase, `replace(/ /g, "-")`,
then `replace(/[^\w-]+/g, "")` (dropping every character that is neither a
word character nor a hyphen). -/
def slugify (s : List Char) : List Char :=
  (((s.map Char.toLower).map fun c => if c = ' ' then '-' else c).filter
    fun c => isWordChar c || c = '-')

/-- JS values as far as the validation paths distinguish them: a string, a
(finite integral) number, a boolean, `undefined`, `null`, an array, or a
function. -/
inductive JSValue where
  | str (s : List Char)
  | num (n : Int)
  | bool (b : Bool)
  | undef
  | null
  | arr (elems : List JSValue)
  | fn

/-- The JS `typeof` operator on the modelled values. -/
def typeofStr : JSValue → String
  | .str _ => "string"
  | .num _ => "number"
  | .bool _ => "boolean"
  | .undef => "undefined"
  | .null => "object"
  | .arr _ => "object"
  | .fn => "function"

def JSValue.isStr : JSValue → Bool
  | .str _ => true
  | _ => false

/-- A JS number argument as seen by the `isNaN` validations: `NaN` or a
(finite integral) value. -/
inductive JSNum where
  | nan
  | int (i : Int)

/-- Result of a call: the returned value (`undef` when the function returns
nothing), the `console.error` diagnostics emitted, and whether the call
aborted with a thrown exception. -/
structure JSResult where
  value : JSValue
  diags : List String
  thrown : Bool

/-- `shorten(text, length, ellipsisCount)`: a non-string `text` reports a
diagnostic and returns `""`; then NaN `length`/`ellipsisCount` report a
diagnostic and return `undefined`; a short enough `text` is returned as is;
otherwise `Array(ellipsisCount)` (which throws a RangeError unless the
count is a valid array length) builds the dot marker appended to
`text.slice(0, length)`. -/
def shortenJS (text : JSValue) (len ell : JSNum) : JSResult :=
  match text with
  | .str s =>
    match len, ell with
    | .int l, .int e =>
      if (s.length : Int) ≤ l then ⟨.str s, [], false⟩
      else if e < 0 ∨ 2 ^ 32 ≤ e then ⟨.undef, [], true⟩
      else ⟨.str (jsSlice s 0 l ++ List.replicate e.toNat '.'), [], false⟩
    | _, _ => ⟨.undef, ["length and ellipsisCount must be valid numbers"], false⟩
  | v => ⟨.str [], ["expecting a string, " ++ typeofStr v ++ " provided"], false⟩

/-- `slugify(text)` with its validation: a non-string `text` reports a
diagnostic and is returned unchanged. -/
def slugifyJS : JSValue → JSResult
  | .str s => ⟨.str (slugify s), [], false⟩
  | v => ⟨v, ["string expected, " ++ typeofStr v ++ " provided"], false⟩

/-- `camelToSnakeCase(text)` with its validation. -/
def camelToSnakeCaseJS : JSValue → JSResult
  | .str s => ⟨.str (camelToSnakeCase s), [], false⟩
  | v => ⟨v, ["string expected, " ++ typeofStr v ++ " provided"], false⟩

/-- `snakeToCamelCase(text)` with its validation. -/
def snakeToCamelCaseJS : JSValue → JSResult
  | .str s => ⟨.str (snakeToCamelCase s), [], false⟩
  | v => ⟨v, ["string expected, " ++ typeofStr v ++ " provided"], false⟩

/-- `stringToColor(text)` with its validation. -/
def stringToColorJS : JSValue → JSResult
  | .str s => ⟨.str (stringToColor s), [], false⟩
  | v => ⟨v, ["string expected, " ++ typeofStr v ++ " provided"], false⟩

/-- Result of a `times` call: diagnostics, whether it threw, and how many
times the callback ran. -/
structure TimesResult where
  diags : List String
  thrown : Bool
  invocations : Nat

/-- `times(times, func)`: `isNaN` check on the count, `typeof` check on the
callback, then `Array.from(Array(times)).forEach(() => func())`;
`Array(times)` raises a RangeError when `times` is negative (or at least
2^32), otherwise the callback runs exactly `times` times. -/
def timesJS (n : JSNum) (func : JSValue) : TimesResult :=
  match n with
  | .nan => ⟨["times to run must be specified"], false, 0⟩
  | .int i =>
    match func with
    | .fn =>
      if i < 0 ∨ 2 ^ 32 ≤ i then ⟨[], true, 0⟩
      else ⟨[], false, i.toNat⟩
    | v => ⟨["func must be a valid function, " ++ typeofStr v ++ " provided"], false, 0⟩

/-- C1 counterexample: `slugify(5)` (a non-string argument) reports a
diagnostic but returns the argument `5` itself, not the absence-of-value
sentinel `undefined`. -/
theorem slugify_nonstring_counterexample :
    (slugifyJS (.num 5)).value = JSValue.num 5 ∧ JSValue.num 5 ≠ JSValue.undef :=
  ⟨rfl, fun h => JSValue.noConfusion h⟩

/-- C1 (amended: invalid arguments are reported via a diagnostic without
throwing, but only the numeric validations return the sentinel; for a
non-string argument `shorten` returns the empty string, while `slugify`,
`camelToSnakeCase`, `snakeToCamelCase` and `stringToColor` return the
argument itself unchanged). -/
theorem nonstring_input_spec (v : JSValue) (hv : v.isStr = false) (l e : JSNum) :
    shortenJS v l e
      = ⟨.str [], ["expecting a string, " ++ typeofStr v ++ " provided"], false⟩ ∧
    slugifyJS v = ⟨v, ["string expected, " ++ typeofStr v ++ " provided"], false⟩ ∧
    camelToSnakeCaseJS v = ⟨v, ["string expected, " ++ typeofStr v ++ " provided"], false⟩ ∧
    snakeToCamelCaseJS v = ⟨v, ["string expected, " ++ typeofStr v ++ " provided"], false⟩ ∧
    stringToColorJS v = ⟨v, ["string expected, " ++ typeofStr v ++ " provided"], false⟩ ∧
    (∀ s : List Char, shortenJS (.str s) .nan (.int 3)
      = ⟨.undef, ["length and ellipsisCount must be valid numbers"], false⟩) ∧
    (timesJS .nan v).diags ≠ [] ∧ (timesJS .nan v).invocations = 0 := by
  cases v with
  | str s => simp [JSValue.isStr] at hv
  | num n => exact ⟨rfl, rfl, rfl, rfl, rfl, fun s => rfl, List.cons_ne_nil _ _, rfl⟩
  | bool b => exact ⟨rfl, rfl, rfl, rfl, rfl, fun s => rfl, List.cons_ne_nil _ _, rfl⟩
  | undef => exact ⟨rfl, rfl, rfl, rfl, rfl, fun s => rfl, List.cons_ne_nil _ _, rfl⟩
  | null => exact ⟨rfl, rfl, rfl, rfl, rfl, fun s => rfl, List.cons_ne_nil _ _, rfl⟩
  | arr elems => exact ⟨rfl, rfl, rfl, rfl, rfl, fun s => rfl, List.cons_ne_nil _ _, rfl⟩
  | fn => exact ⟨rfl, rfl, rfl, rfl, rfl, fun s => rfl, List.cons_ne_nil _ _, rfl⟩

/-- Witness for `nonstring_input_spec` at the non-string argument `5`. -/
theorem nonstring_input_spec_witness :
    slugifyJS (.num 5) = ⟨.num 5, ["string expected, number provided"], false⟩ ∧
    shortenJS (.num 5) (.int 10) (.int 3)
      = ⟨.str [], ["expecting a string, number provided"], false⟩ :=
  ⟨(nonstring_input_spec (.num 5) rfl (.int 10) (.int 3)).2.1,
   (nonstring_input_spec (.num 5) rfl (.int 10) (.int 3)).1⟩

/-- C4 counterexample: `times(-1, f)` with a callable `f`: `-1` is a valid
number (it passes the `isNaN` validation) and `f` is callable, yet the call
aborts with a thrown RangeError from `Array(-1)`, emitting no diagnostic and
performing zero invocations — it neither invokes `f` "exactly n times" nor
reports a diagnostic with no result. -/
theorem times_negative_counterexample :
    (timesJS (.int (-1)) .fn).thrown = true ∧
    (timesJS (.int (-1)) .fn).diags = [] ∧
    (timesJS (.int (-1)) .fn).invocations = 0 :=
  ⟨rfl, rfl, rfl⟩

/-- C4 (amended: a valid `n` must also be a valid array length, i.e. a
non-negative integer below 2^32, because `Array(n)` throws otherwise): for
such `n` and a callable `func`, `times` invokes `func` exactly `n` times
with no diagnostic and no exception; for NaN `n` or a non-callable `func`
it emits a diagnostic, returns no result and performs zero invocations; for
a valid number outside array-length range it throws with zero
invocations. -/
theorem times_spec (i : Int) (v : JSValue) :
    (0 ≤ i → i < 2 ^ 32 → timesJS (.int i) .fn = ⟨[], false, i.toNat⟩) ∧
    (timesJS .nan v).invocations = 0 ∧
    (timesJS .nan v).diags = ["times to run must be specified"] ∧
    (v ≠ .fn → (timesJS (.int i) v).invocations = 0 ∧
      (timesJS (.int i) v).diags
        = ["func must be a valid function, " ++ typeofStr v ++ " provided"]) ∧
    ((i < 0 ∨ 2 ^ 32 ≤ i) → timesJS (.int i) .fn = ⟨[], true, 0⟩) := by
  refine ⟨?_, rfl, rfl, ?_, ?_⟩
  · intro h1 h2
    simp only [timesJS]
    rw [if_neg (by omega)]
  · intro hv
    cases v with
    | fn => exact absurd rfl hv
    | str s => exact ⟨rfl, rfl⟩
    | num n => exact ⟨rfl, rfl⟩
    | bool b => exact ⟨rfl, rfl⟩
    | undef => exact ⟨rfl, rfl⟩
    | null => exact ⟨rfl, rfl⟩
    | arr elems => exact ⟨rfl, rfl⟩
  · intro h
    simp only [timesJS]
    rw [if_pos h]

/-- Witness for `times_spec` at `n = 3` with a callable `func` (and the
non-callable argument `null`). -/
theorem times_spec_witness :
    timesJS (.int 3) .fn = ⟨[], false, 3⟩ ∧
    (timesJS (.int 3) .null).invocations = 0 :=
  ⟨(times_spec 3 .null).1 (by norm_num) (by norm_num),
   ((times_spec 3 .null).2.2.2.1 (fun h => JSValue.noConfusion h)).1⟩
